import Mathlib

/-!
Verification of the appimage-resigner signature embedding, removal and
OpenPGP metadata parsing core, shallowly embedded from the Python source
(src/resigner.py, src/verify.py, embed_signature.py).  Byte buffers are
modelled as `List Nat` (each element one byte value), strings of armor
text as the list of their character codes.
-/

namespace AppImageResigner

/-- Character codes of a Lean string literal, used to write byte-level
constants readably.  ASCII text only. -/
def strCodes (s : String) : List Nat := s.toList.map Char.toNat

/-- Read of `data[i]` on a byte buffer; 0 past the end.  Every use below
mirrors a read that the Python source performs under an identical bounds
guard. -/
def byte : List Nat → Nat → Nat
  | [], _ => 0
  | b :: _, 0 => b
  | _ :: l, i + 1 => byte l i

/-- The armor begin marker searched as a raw byte literal:
the bytes of the string found in resigner.py line 145 and
embed_signature.py line 35. -/
def marker : List Nat := strCodes ("-----BEGIN PGP SIGNATURE-----")

/-- Membership in the tuple of separator bytes
(b'\n', b'\r', b' ', b'\t') used by the backwards trim loops
(resigner.py line 150, verify.py line 172, embed_signature.py line 45). -/
def isWS (b : Nat) : Bool := b == 10 || b == 13 || b == 32 || b == 9

/-- The backwards whitespace trim: from offset `i`, decrement while the
preceding byte is a separator byte (resigner.py lines 149-151). -/
def trimBoundary (data : List Nat) : Nat → Nat
  | 0 => 0
  | i + 1 => if isWS (byte data i) then trimBoundary data i else i + 1

/-- Search downwards from offset `n` for the highest offset at which
`sub` occurs in `data`; models the scan done by bytes.rfind. -/
def rfindFrom (data sub : List Nat) : Nat → Option Nat
  | 0 => if sub.isPrefixOf data then some 0 else none
  | n + 1 => if sub.isPrefixOf (data.drop (n + 1)) then some (n + 1) else rfindFrom data sub n

/-- bytes.rfind: offset of the last occurrence of `sub` in `data`,
`none` when absent (the Python `in` test and rfind, combined). -/
def rfindSub (data sub : List Nat) : Option Nat := rfindFrom data sub data.length

/-- Removal of an embedded signature (resigner.py lines 144-153):
if the begin marker occurs, truncate at the trimmed boundary before its
last occurrence; otherwise leave the buffer unchanged. -/
def removeSignature (data : List Nat) : List Nat :=
  match rfindSub data marker with
  | none => data
  | some i => data.take (trimBoundary data i)

/-- First pass of line ending normalization:
str.replace of CRLF by LF, left to right (resigner.py line 178). -/
def replaceCRLF : List Nat → List Nat
  | 13 :: 10 :: rest => 10 :: replaceCRLF rest
  | c :: rest => c :: replaceCRLF rest
  | [] => []

/-- Second pass of line ending normalization:
str.replace of CR by LF (resigner.py line 178). -/
def replaceCR : List Nat → List Nat
  | 13 :: rest => 10 :: replaceCR rest
  | c :: rest => c :: replaceCR rest
  | [] => []

/-- signature_text.replace of CRLF by LF followed by replace of CR by LF
(resigner.py line 178, verify.py line 181). -/
def normalize (s : List Nat) : List Nat := replaceCR (replaceCRLF s)

/-- The bytes written when resigner.py embeds a signature
(lines 188-196): the trimmed clean payload, one 0x0A separator, and the
normalized signature text. -/
def embedClean (file sig : List Nat) : List Nat :=
  removeSignature file ++ 10 :: normalize sig

/-- The embed branch of sign_appimage (resigner.py lines 187-208),
as a transformer of the container file bytes paired with the returned
boolean.  `writeOk` is false when the embed write raises: the except
branch then rewrites the trimmed payload and the function still falls
through to `return True`. -/
def signEmbedFile (file sig : List Nat) (writeOk : Bool) : List Nat × Bool :=
  if writeOk then (embedClean file sig, true)
  else (removeSignature file, true)

/-- The detached-only branch of sign_appimage (resigner.py lines
203-208): on success the container file is rewritten with the trimmed
clean payload computed at lines 144-153. -/
def signDetachedFile (file : List Nat) : List Nat := removeSignature file

/-- embed_signature.embed_signature (embed_signature.py lines 43-77),
confirmed-replace path: the rewritten file bytes (no normalization of
the signature text happens in this script) paired with the result of the
re-locate check on the rewritten bytes. -/
def embedSigFile (app sig : List Nat) : List Nat × Bool :=
  let newContent := removeSignature app ++ 10 :: sig
  (newContent, (rfindSub newContent marker).isSome)

/-! ### The OpenPGP metadata parser (verify.py parse_signature_metadata) -/

/-- Python str.strip whitespace set (str.isspace): tab through carriage
return, the file and group separators 28-31, space, next line 133, no
break space 160, ogham space 5760, the en quad family 8192-8202, line
and paragraph separators 8232 and 8233, narrow no break space 8239,
mathematical space 8287 and ideographic space 12288. -/
def isPyWS (c : Nat) : Bool :=
  (9 ≤ c && c ≤ 13) || (28 ≤ c && c ≤ 31) || c == 32 || c == 133 || c == 160 ||
  c == 5760 || (8192 ≤ c && c ≤ 8202) || c == 8232 || c == 8233 || c == 8239 ||
  c == 8287 || c == 12288

/-- line.strip(): drop leading and trailing whitespace characters
(verify.py line 487). -/
def stripStr (l : List Nat) : List Nat :=
  ((l.dropWhile isPyWS).reverse.dropWhile isPyWS).reverse

/-- signature_data.split of the newline character (verify.py line 482). -/
def splitLines : List Nat → List (List Nat)
  | [] => [[]]
  | 10 :: rest => [] :: splitLines rest
  | c :: rest =>
    match splitLines rest with
    | [] => [[c]]
    | l :: ls => (c :: l) :: ls

/-- Substring containment test, modelling the Python `in` operator on
strings. -/
def containsSub (sub : List Nat) : List Nat → Bool
  | [] => sub.isPrefixOf []
  | c :: rest => sub.isPrefixOf (c :: rest) || containsSub sub rest

/-- The text searched in each line to enter the armor body
(verify.py line 488). -/
def beginText : List Nat := strCodes ("BEGIN PGP SIGNATURE")

/-- The text searched in each line to end the armor body
(verify.py line 491). -/
def endText : List Nat := strCodes ("END PGP SIGNATURE")

/-- The line loop of verify.py lines 486-494: collect the stripped,
nonempty lines strictly between the markers, excluding the checksum
line starting with the equals sign. -/
def collectB64 : List (List Nat) → Bool → List (List Nat)
  | [], _ => []
  | line :: rest, inSig =>
    let l := stripStr line
    if containsSub beginText l then collectB64 rest true
    else if containsSub endText l then []
    else if inSig && !l.isEmpty && !(l.headD 0 == 61) then l :: collectB64 rest inSig
    else collectB64 rest inSig

/-- The base64 digit table: value of a character, none for characters
outside the alphabet (which binascii.a2b_base64 skips in non strict
mode). -/
def b64Char (c : Nat) : Option Nat :=
  if 65 ≤ c ∧ c ≤ 90 then some (c - 65)
  else if 97 ≤ c ∧ c ≤ 122 then some (c - 71)
  else if 48 ≤ c ∧ c ≤ 57 then some (c + 4)
  else if c = 43 then some 62
  else if c = 47 then some 63
  else none

/-- binascii.a2b_base64 in non strict mode, as called by
base64.b64decode with validate False (verify.py line 502): skip
characters outside the alphabet, emit three bytes per quad, stop at a
completing padding sign, and fail (none) on a dangling quad at the end
of input. -/
def a2bB64 : List Nat → Nat → Nat → Nat → Option (List Nat)
  | [], quadPos, _, _ => if quadPos = 0 then some [] else none
  | c :: rest, quadPos, leftchar, pads =>
    if c = 61 then
      if 2 ≤ quadPos then
        if 4 ≤ quadPos + pads + 1 then some []
        else a2bB64 rest quadPos leftchar (pads + 1)
      else a2bB64 rest quadPos leftchar pads
    else
      match b64Char c with
      | none => a2bB64 rest quadPos leftchar pads
      | some v =>
        if quadPos = 0 then a2bB64 rest 1 v 0
        else if quadPos = 1 then
          (a2bB64 rest 2 (v % 16) 0).map (fun out => (leftchar * 4 + v / 16) :: out)
        else if quadPos = 2 then
          (a2bB64 rest 3 (v % 4) 0).map (fun out => (leftchar * 16 + v / 4) :: out)
        else
          (a2bB64 rest 0 0 0).map (fun out => (leftchar * 64 + v) :: out)

/-- base64.b64decode on a str value: encode to ASCII (failure on a
character above 127), then a2b_base64; none models the exceptions the
caller turns into the base64 decode error. -/
def b64decode (s : List Nat) : Option (List Nat) :=
  if s.any (fun c => 127 < c) then none
  else a2bB64 s 0 0 0

/-- The metadata dictionary built by parse_signature_metadata
(verify.py lines 469-478), with the fields it can ever hold.  The
derived field timestamp_readable (a strftime rendering of timestamp) is
omitted as pure formatting. -/
structure Meta where
  raw_available : Bool := false
  algorithm : Option String := none
  hash_algorithm : Option String := none
  timestamp : Option Nat := none
  key_id : Option String := none
  signature_type : Option Nat := none
  version : Option Nat := none
  algorithm_id : Option Nat := none
  hash_algorithm_id : Option Nat := none
  parse_error : Option String := none
deriving DecidableEq

/-- verify.py get_algorithm_name: static public key algorithm table,
with a formatted fallback for unknown IDs. -/
def get_algorithm_name (a : Nat) : String :=
  if a = 1 then ("RSA (Encrypt or Sign)")
  else if a = 2 then ("RSA (Encrypt Only)")
  else if a = 3 then ("RSA (Sign Only)")
  else if a = 16 then ("Elgamal (Encrypt Only)")
  else if a = 17 then ("DSA (Digital Signature Algorithm)")
  else if a = 18 then ("ECDH (Elliptic Curve)")
  else if a = 19 then ("ECDSA (Elliptic Curve Digital Signature Algorithm)")
  else if a = 22 then ("EdDSA (Ed25519/Ed448)")
  else if a = 23 then ("AEDH")
  else if a = 24 then ("AEDSA")
  else ("Unknown Algorithm (") ++ toString a ++ (")")

/-- verify.py get_hash_algorithm_name: static hash algorithm table,
with a formatted fallback for unknown IDs. -/
def get_hash_algorithm_name (h : Nat) : String :=
  if h = 1 then ("MD5")
  else if h = 2 then ("SHA-1")
  else if h = 3 then ("RIPEMD-160")
  else if h = 8 then ("SHA-256")
  else if h = 9 then ("SHA-384")
  else if h = 10 then ("SHA-512")
  else if h = 11 then ("SHA-224")
  else ("Unknown Hash (") ++ toString h ++ (")")

/-- struct.unpack of a big endian four byte unsigned integer at offset
`i` of the decoded buffer. -/
def be4 (d : List Nat) (i : Nat) : Nat :=
  byte d i * 16777216 + byte d (i + 1) * 65536 + byte d (i + 2) * 256 + byte d (i + 3)

/-- One uppercase hexadecimal digit character for a value below 16. -/
def hexDigit (n : Nat) : Char :=
  if n < 10 then Char.ofNat (48 + n) else Char.ofNat (55 + n)

/-- The two uppercase hexadecimal digits of one byte, the format
applied per byte by verify.py lines 630 and 656. -/
def byteHex (b : Nat) : List Char := [hexDigit (b / 16 % 16), hexDigit (b % 16)]

/-- The sixteen uppercase hexadecimal characters of the eight key ID
bytes starting at offset `i`; the join over decoded slice idx..idx+8 of
verify.py lines 629-630 and 655-656, whose call sites guard that the
eight bytes are in bounds. -/
def hex16Chars (d : List Nat) (i : Nat) : List Char :=
  byteHex (byte d i) ++ byteHex (byte d (i + 1)) ++ byteHex (byte d (i + 2)) ++
    byteHex (byte d (i + 3)) ++ byteHex (byte d (i + 4)) ++ byteHex (byte d (i + 5)) ++
    byteHex (byte d (i + 6)) ++ byteHex (byte d (i + 7))

/-- The key ID string rendered from the eight bytes at offset `i`. -/
def hex16 (d : List Nat) (i : Nat) : String := String.mk (hex16Chars d i)

/-- Character class of the uppercase hexadecimal alphabet. -/
def isUpperHexChar (c : Char) : Bool :=
  (decide (48 ≤ c.toNat) && decide (c.toNat ≤ 57)) ||
  (decide (65 ≤ c.toNat) && decide (c.toNat ≤ 70))

/-- Interpretation of one sub packet value (verify.py lines 619-630):
type 2 with exactly four value bytes is the creation timestamp, type 16
with exactly eight value bytes is the issuer key ID, anything else
leaves the metadata unchanged. -/
def interpretSub (d : List Nat) (subType subLen i2 : Nat) (m : Meta) : Meta :=
  if subType = 2 ∧ subLen = 4 then
    if i2 + 4 ≤ d.length then {m with timestamp := some (be4 d i2)} else m
  else if subType = 16 ∧ subLen = 8 then
    if i2 + 8 ≤ d.length then {m with key_id := some (hex16 d i2)} else m
  else m

/-- The tail of one iteration of the sub packet loop after the length
bytes have been consumed (verify.py lines 612-632): break (none) when
the type octet is out of bounds or the declared length is below one;
otherwise interpret the value and step past it. -/
def subCont (d : List Nat) (subLen i1 : Nat) (m : Meta) : Option (Nat × Meta) :=
  if d.length ≤ i1 ∨ subLen < 1 then none
  else some (i1 + 1 + (subLen - 1), interpretSub d (byte d i1) (subLen - 1) (i1 + 1) m)

/-- One iteration of the sub packet loop (verify.py lines 596-632):
read the sub packet length in its one, two or five byte encoding
(breaking on a truncated length field), then continue with subCont. -/
def subStep (d : List Nat) (idx : Nat) (m : Meta) : Option (Nat × Meta) :=
  if byte d idx < 192 then
    subCont d (byte d idx) (idx + 1) m
  else if byte d idx < 255 then
    if d.length ≤ idx + 1 then none
    else subCont d ((byte d idx - 192) * 256 + byte d (idx + 1) + 192) (idx + 2) m
  else
    if d.length ≤ idx + 4 then none
    else subCont d (be4 d (idx + 1)) (idx + 5) m

/-- The hashed sub packet loop (verify.py lines 596-632): while the
index is inside the hashed region and the buffer, run one iteration;
the loop variable strictly increases on every iteration. -/
def subLoop (d : List Nat) (subEnd idx : Nat) (m : Meta) : Meta :=
  if hin : idx < subEnd ∧ idx < d.length then
    if hs : (subStep d idx m).isSome then
      subLoop d subEnd ((subStep d idx m).get hs).1 ((subStep d idx m).get hs).2
    else m
  else m
termination_by subEnd - idx
decreasing_by
  obtain ⟨p, hp⟩ : ∃ p, subStep d idx m = some p := ⟨_, (Option.some_get hs).symm⟩
  have hget : (subStep d idx m).get hs = p := Option.some_inj.mp ((Option.some_get hs).trans hp)
  rw [hget]
  have hlt : idx < p.1 := by
    unfold subStep subCont at hp
    by_cases h1 : byte d idx < 192
    · rw [if_pos h1] at hp
      by_cases hc : d.length ≤ idx + 1 ∨ byte d idx < 1
      · rw [if_pos hc] at hp; cases hp
      · rw [if_neg hc] at hp
        have h2 := Option.some.inj hp
        have h3 : p.1 = idx + 1 + 1 + (byte d idx - 1) := by rw [← h2]
        omega
    · rw [if_neg h1] at hp
      by_cases h2 : byte d idx < 255
      · rw [if_pos h2] at hp
        by_cases h3 : d.length ≤ idx + 1
        · rw [if_pos h3] at hp; cases hp
        · rw [if_neg h3] at hp
          by_cases hc : d.length ≤ idx + 2 ∨ (byte d idx - 192) * 256 + byte d (idx + 1) + 192 < 1
          · rw [if_pos hc] at hp; cases hp
          · rw [if_neg hc] at hp
            have h4 := Option.some.inj hp
            have h5 : p.1 = idx + 2 + 1 + ((byte d idx - 192) * 256 + byte d (idx + 1) + 192 - 1) := by
              rw [← h4]
            omega
      · rw [if_neg h2] at hp
        by_cases h3 : d.length ≤ idx + 4
        · rw [if_pos h3] at hp; cases hp
        · rw [if_neg h3] at hp
          by_cases hc : d.length ≤ idx + 5 ∨ be4 d (idx + 1) < 1
          · rw [if_pos hc] at hp; cases hp
          · rw [if_neg hc] at hp
            have h4 := Option.some.inj hp
            have h5 : p.1 = idx + 5 + 1 + (be4 d (idx + 1) - 1) := by rw [← h4]
            omega
  omega

/-- The packet header decode of verify.py lines 516-550: the packet
type and the index just past the length field.  The packet_length
value itself is computed by the source but never used afterwards, so it
is not returned. -/
def parseHeader (d : List Nat) : Nat × Nat :=
  let tag := byte d 0
  if tag &&& 64 ≠ 0 then
    let pt := tag &&& 63
    if 1 < d.length then
      let lb := byte d 1
      if lb < 192 then (pt, 2)
      else if lb < 224 then (if 2 < d.length then (pt, 3) else (pt, 2))
      else (pt, 2)
    else (pt, 1)
  else
    let pt := (tag >>> 2) &&& 15
    let lt := tag &&& 3
    if lt = 0 then (pt, 2)
    else if lt = 1 then (pt, 3)
    else if lt = 2 then (pt, 5)
    else (pt, 1)

/-- The v3 timestamp read (verify.py lines 646-651): set the big
endian creation time and advance by four only when the four bytes are
in bounds. -/
def v3Time (d : List Nat) (p : Meta × Nat) : Meta × Nat :=
  if p.2 + 4 ≤ d.length then ({p.1 with timestamp := some (be4 d p.2)}, p.2 + 4) else p

/-- The v3 key ID read (verify.py lines 653-657): set the sixteen
hexadecimal character key ID and advance by eight only when the eight
bytes are in bounds. -/
def v3KeyId (d : List Nat) (p : Meta × Nat) : Meta × Nat :=
  if p.2 + 8 ≤ d.length then ({p.1 with key_id := some (hex16 d p.2)}, p.2 + 8) else p

/-- The v3 public key algorithm read (verify.py lines 659-664). -/
def v3Algo (d : List Nat) (p : Meta × Nat) : Meta × Nat :=
  if p.2 < d.length then
    ({p.1 with
      algorithm := some (get_algorithm_name (byte d p.2)), algorithm_id := some (byte d p.2)},
      p.2 + 1)
  else p

/-- The v3 hash algorithm read (verify.py lines 666-670), the last
field of the fixed layout. -/
def v3Hash (d : List Nat) (p : Meta × Nat) : Meta :=
  if p.2 < d.length then
    {p.1 with
      hash_algorithm := some (get_hash_algorithm_name (byte d p.2)),
      hash_algorithm_id := some (byte d p.2)}
  else p.1

/-- The signature packet body parse (verify.py lines 552-670), entered
with the index just past the packet header and the metadata holding
raw_available true. -/
def parseSigBody (d : List Nat) (idx0 : Nat) (m0 : Meta) : Meta :=
  if d.length ≤ idx0 then m0 else
  let version := byte d idx0
  let m1 := {m0 with version := some version}
  let i1 := idx0 + 1
  if version = 4 ∨ version = 5 then
    if d.length ≤ i1 then m1 else
    let m2 := {m1 with signature_type := some (byte d i1)}
    let i2 := i1 + 1
    if d.length ≤ i2 then m2 else
    let a := byte d i2
    let m3 := {m2 with algorithm := some (get_algorithm_name a), algorithm_id := some a}
    let i3 := i2 + 1
    if d.length ≤ i3 then m3 else
    let hh := byte d i3
    let m4 := {m3 with
      hash_algorithm := some (get_hash_algorithm_name hh), hash_algorithm_id := some hh}
    let i4 := i3 + 1
    if d.length ≤ i4 + 1 then m4 else
    let hashedLen := byte d i4 * 256 + byte d (i4 + 1)
    subLoop d (i4 + 2 + hashedLen) (i4 + 2) m4
  else if version = 3 then
    let i2 := i1 + 1
    if d.length ≤ i2 then m1 else
    let m2 := {m1 with signature_type := some (byte d i2)}
    v3Hash d (v3Algo d (v3KeyId d (v3Time d (m2, i2 + 1))))
  else m1

/-- verify.py parse_signature_metadata (lines 458-675): extract the
base64 body between the markers, decode it, and on a buffer of at
least ten bytes parse the packet header and, for packet type 2, the
signature body.  Decode failures are recorded in the parse_error field
of the returned metadata, never raised. -/
def parse_signature_metadata (s : List Nat) : Meta :=
  let b64lines := collectB64 (splitLines s) false
  if b64lines = [] then {} else
  match b64decode b64lines.flatten with
  | none => { parse_error := some ("Base64 decode error") }
  | some decoded =>
    if decoded.length < 10 then { parse_error := some ("Signature data too short") }
    else
      let m : Meta := { raw_available := true }
      let hdr := parseHeader decoded
      if hdr.1 = 2 then parseSigBody decoded hdr.2 m else m

/-! ### Concrete vectors -/

/-- A small but well formed armored signature text: a v4 signature
packet with creation time 1700000000 and issuer key ID
0123456789ABCDEF, wrapped in the BEGIN and END marker lines with a
checksum line. -/
def sigEx : List Nat := strCodes
  ("-----BEGIN PGP SIGNATURE-----\n\nwhYEAAEIABAFAmVT8QAJEAEjRWeJq83v\n=ABCD\n-----END PGP SIGNATURE-----\n")

/-- An armor text whose decoded packet has tag 1 (not a Signature
packet): new format tag octet 0xC1, body [1,2,3,4,5,6,7,8]. -/
def ex5 : List Nat := strCodes
  ("-----BEGIN PGP SIGNATURE-----\n\nwQgBAgMEBQYHCA==\n-----END PGP SIGNATURE-----\n")

/-- An armor text whose decoded packet has tag 2 and version byte 6,
outside the supported set: old format tag octet 0x88. -/
def ex6 : List Nat := strCodes
  ("-----BEGIN PGP SIGNATURE-----\n\niAcGAAAAAAAAAA==\n-----END PGP SIGNATURE-----\n")

/-- The decoded signature packet of sigEx: new format tag 2, length 22,
version 4, hashed sub packets type 2 (timestamp 1700000000) and type 16
(issuer key ID 0123456789ABCDEF). -/
def decodedEx : List Nat :=
  [194, 22, 4, 0, 1, 8, 0, 16, 5, 2, 101, 83, 241, 0, 9, 16, 1, 35, 69, 103, 137, 171, 205, 239]

/-- A buffer whose sub packet at offset 0 declares its length in the
two byte encoding: length bytes 192 and 0 encode the declared length
192, followed by the type octet 21. -/
def decodedEx2 : List Nat := [192, 0, 21, 7, 7]

/-- A buffer whose sub packet at offset 0 declares its length in the
five byte encoding: length marker 255 and the big endian length 2,
followed by the type octet 9 and one value byte. -/
def decodedEx3 : List Nat := [255, 0, 0, 0, 2, 9, 0, 0]

/-! ### Helper lemmas about indexing, prefixes and the scanners -/

theorem isPre_iff (a l : List Nat) : a.isPrefixOf l = true ↔ a <+: l :=
  List.isPrefixOf_iff_prefix

theorem take_pre (n : Nat) (l : List Nat) : l.take n <+: l :=
  List.take_prefix n l

theorem pre_iff_take (a l : List Nat) : a <+: l ↔ a = l.take a.length :=
  List.prefix_iff_eq_take

theorem byte_append_left (P X : List Nat) (k : Nat) (h : k < P.length) :
    byte (P ++ X) k = byte P k := by
  induction P generalizing k with
  | nil => simp at h
  | cons a P ih =>
    cases k with
    | zero => rfl
    | succ k => exact ih k (by simpa using h)

theorem byte_append_right (P X : List Nat) (k : Nat) :
    byte (P ++ X) (P.length + k) = byte X k := by
  induction P with
  | nil => simp [byte]
  | cons a P ih => simpa [Nat.succ_add, byte] using ih

theorem drop_append_right (P X : List Nat) (k : Nat) :
    (P ++ X).drop (P.length + k) = X.drop k := by
  induction P with
  | nil => simp
  | cons a P ih => simp [Nat.succ_add, ih]

theorem take_append_self (P X : List Nat) : (P ++ X).take P.length = P := by
  induction P with
  | nil => simp
  | cons a P ih => simp [ih]

theorem byte_take (l : List Nat) (n t : Nat) (h : t < n) :
    byte (l.take n) t = byte l t := by
  induction l generalizing n t with
  | nil => simp
  | cons a l ih =>
    cases n with
    | zero => omega
    | succ n =>
      cases t with
      | zero => rfl
      | succ t => simpa [byte] using ih n t (by omega)

theorem drop_append_left (P X : List Nat) (k : Nat) (h : k ≤ P.length) :
    (P ++ X).drop k = P.drop k ++ X := by
  induction P generalizing k with
  | nil =>
    have : k = 0 := by simpa using h
    subst this
    simp
  | cons a P ih =>
    cases k with
    | zero => simp
    | succ k => simpa using ih k (by simpa using h)

theorem byte_drop (l : List Nat) (k m : Nat) :
    byte (l.drop k) m = byte l (k + m) := by
  induction l generalizing k with
  | nil => simp [byte]
  | cons a l ih =>
    cases k with
    | zero => simp
    | succ k => simpa [Nat.succ_add, byte] using ih k

theorem byte_mem (w : List Nat) (t : Nat) (h : t < w.length) : byte w t ∈ w := by
  induction w generalizing t with
  | nil => simp at h
  | cons a w ih =>
    cases t with
    | zero => simp [byte]
    | succ t =>
      have := ih t (by simpa using h)
      simp only [byte]
      exact List.mem_cons_of_mem a this

theorem prefix_of_prefix_append (sub A B : List Nat)
    (h : sub <+: A ++ B) (hlen : sub.length ≤ A.length) : sub <+: A := by
  have h1 : sub = (A ++ B).take sub.length := (pre_iff_take _ _).mp h
  have h2 : (A ++ B).take sub.length = A.take sub.length := by
    rw [List.take_append_eq_append_take]
    have : sub.length - A.length = 0 := by omega
    simp [this]
  rw [h1, h2]
  exact take_pre _ _

theorem byte_of_prefix_drop (sub l : List Nat) (k m : Nat)
    (h : sub <+: l.drop k) (hm : m < sub.length) :
    byte l (k + m) = byte sub m := by
  obtain ⟨t, ht⟩ := h
  rw [← byte_drop, ← ht]
  exact byte_append_left sub t m hm

theorem length_le_of_prefix_drop (sub l : List Nat) (k : Nat) (hs : 0 < sub.length)
    (h : sub <+: l.drop k) : k + sub.length ≤ l.length := by
  have h1 := h.length_le
  rw [List.length_drop] at h1
  rcases Nat.lt_or_ge k l.length with hk | hk
  · omega
  · rw [List.drop_eq_nil_of_le (by omega)] at h
    have := h.length_le
    simp at this
    omega

theorem rfindFrom_eq_none (data sub : List Nat) (n : Nat) :
    rfindFrom data sub n = none ↔ ∀ i ≤ n, ¬ sub <+: data.drop i := by
  induction n with
  | zero =>
    simp only [rfindFrom]
    constructor
    · intro h i hi
      have : i = 0 := by omega
      subst this
      intro hp
      rw [if_pos ((isPre_iff _ _).mpr (by simpa using hp))] at h
      simp at h
    · intro h
      rw [if_neg]
      intro hp
      exact h 0 (Nat.le_refl 0) (by simpa using (isPre_iff _ _).mp hp)
  | succ n ih =>
    simp only [rfindFrom]
    constructor
    · intro h i hi
      by_cases hpre : sub.isPrefixOf (data.drop (n + 1))
      · rw [if_pos hpre] at h
        simp at h
      · rw [if_neg hpre] at h
        rcases Nat.lt_or_ge i (n + 1) with hil | hil
        · exact (ih.mp h) i (by omega)
        · have : i = n + 1 := by omega
          subst this
          intro hp
          exact hpre ((isPre_iff _ _).mpr hp)
    · intro h
      rw [if_neg]
      · exact ih.mpr fun i hi => h i (by omega)
      · intro hp
        exact h (n + 1) (Nat.le_refl _) ((isPre_iff _ _).mp hp)

theorem rfindFrom_eq_some (data sub : List Nat) (n i : Nat)
    (h : rfindFrom data sub n = some i) :
    sub <+: data.drop i ∧ i ≤ n ∧ ∀ j, i < j → j ≤ n → ¬ sub <+: data.drop j := by
  induction n with
  | zero =>
    simp only [rfindFrom] at h
    by_cases hpre : sub.isPrefixOf data
    · rw [if_pos hpre] at h
      simp at h
      subst h
      exact ⟨by simpa using (isPre_iff _ _).mp hpre, Nat.le_refl 0,
        fun j hj hj' => by omega⟩
    · rw [if_neg hpre] at h
      simp at h
  | succ n ih =>
    simp only [rfindFrom] at h
    by_cases hpre : sub.isPrefixOf (data.drop (n + 1))
    · rw [if_pos hpre] at h
      simp at h
      subst h
      exact ⟨(isPre_iff _ _).mp hpre, Nat.le_refl _,
        fun j hj hj' => by omega⟩
    · rw [if_neg hpre] at h
      obtain ⟨h1, h2, h3⟩ := ih h
      refine ⟨h1, by omega, fun j hj hj' => ?_⟩
      rcases Nat.lt_or_ge j (n + 1) with hl | hl
      · exact h3 j hj (by omega)
      · have : j = n + 1 := by omega
        subst this
        exact fun hp => hpre ((isPre_iff _ _).mpr hp)

theorem rfindFrom_eq_some_of (data sub : List Nat) (n i : Nat)
    (hin : i ≤ n) (hocc : sub <+: data.drop i)
    (hmax : ∀ j, i < j → j ≤ n → ¬ sub <+: data.drop j) :
    rfindFrom data sub n = some i := by
  induction n with
  | zero =>
    have : i = 0 := by omega
    subst this
    simp only [rfindFrom]
    rw [if_pos ((isPre_iff _ _).mpr (by simpa using hocc))]
  | succ n ih =>
    simp only [rfindFrom]
    rcases Nat.lt_or_ge i (n + 1) with hl | hl
    · rw [if_neg (fun hp => hmax (n + 1) hl (Nat.le_refl _)
        ((isPre_iff _ _).mp hp))]
      exact ih (by omega) (fun j hj hj' => hmax j hj (by omega))
    · have : i = n + 1 := by omega
      subst this
      rw [if_pos ((isPre_iff _ _).mpr hocc)]

theorem marker_length : marker.length = 29 := by decide

theorem marker_no_newline : ∀ m, m < 29 → byte marker m ≠ 10 := by decide

/-! ### trimBoundary lemmas -/

theorem trimBoundary_le (l : List Nat) (i : Nat) : trimBoundary l i ≤ i := by
  induction i with
  | zero => exact Nat.le_refl 0
  | succ i ih =>
    simp only [trimBoundary]
    by_cases h : isWS (byte l i)
    · rw [if_pos h]; omega
    · rw [if_neg h]

theorem trimBoundary_eq_of (l : List Nat) (i b0 : Nat) (hb : b0 ≤ i)
    (hws : ∀ k, b0 ≤ k → k < i → isWS (byte l k) = true)
    (hstop : b0 = 0 ∨ isWS (byte l (b0 - 1)) = false) :
    trimBoundary l i = b0 := by
  induction i with
  | zero =>
    have : b0 = 0 := by omega
    subst this
    rfl
  | succ i ih =>
    simp only [trimBoundary]
    rcases Nat.lt_or_ge i b0 with hl | hl
    · have : b0 = i + 1 := by omega
      subst this
      rcases hstop with h0 | hno
      · omega
      · simp only [Nat.add_sub_cancel] at hno
        rw [if_neg (by simp [hno])]
    · rw [if_pos (hws i hl (by omega))]
      exact ih (by omega) (fun k h1 h2 => hws k h1 (by omega))

theorem trimBoundary_stop (l : List Nat) (i : Nat) :
    trimBoundary l i = 0 ∨ isWS (byte l (trimBoundary l i - 1)) = false := by
  induction i with
  | zero => exact Or.inl rfl
  | succ i ih =>
    simp only [trimBoundary]
    by_cases h : isWS (byte l i)
    · rw [if_pos h]; exact ih
    · rw [if_neg h]
      exact Or.inr (by simpa using h)

theorem trimBoundary_max (l : List Nat) (i o : Nat) (ho : o ≤ i)
    (hq : o = 0 ∨ isWS (byte l (o - 1)) = false) :
    o ≤ trimBoundary l i := by
  induction i with
  | zero => omega
  | succ i ih =>
    simp only [trimBoundary]
    by_cases h : isWS (byte l i)
    · rw [if_pos h]
      rcases Nat.lt_or_ge o (i + 1) with hl | hl
      · exact ih (by omega)
      · have : o = i + 1 := by omega
        subst this
        rcases hq with h0 | hno
        · omega
        · simp only [Nat.add_sub_cancel] at hno
          rw [hno] at h
          simp at h
    · rw [if_neg h]; omega

theorem subCont_spec (d : List Nat) (L i1 : Nat) (m : Meta) (p : Nat × Meta)
    (h : subCont d L i1 m = some p) :
    p.1 = i1 + 1 + (L - 1) ∧
    p.2 = interpretSub d (byte d i1) (L - 1) (i1 + 1) m ∧
    i1 < d.length ∧ 1 ≤ L := by
  unfold subCont at h
  by_cases hc : d.length ≤ i1 ∨ L < 1
  · rw [if_pos hc] at h
    cases h
  · rw [if_neg hc] at h
    obtain rfl := Option.some.inj h
    exact ⟨rfl, rfl, by omega, by omega⟩

theorem subStep_lt (d : List Nat) (idx : Nat) (m : Meta) (p : Nat × Meta)
    (h : subStep d idx m = some p) : idx < p.1 := by
  unfold subStep at h
  by_cases h1 : byte d idx < 192
  · rw [if_pos h1] at h
    have := (subCont_spec _ _ _ _ _ h).1
    omega
  · rw [if_neg h1] at h
    by_cases h2 : byte d idx < 255
    · rw [if_pos h2] at h
      by_cases h3 : d.length ≤ idx + 1
      · rw [if_pos h3] at h; cases h
      · rw [if_neg h3] at h
        have := (subCont_spec _ _ _ _ _ h).1
        omega
    · rw [if_neg h2] at h
      by_cases h3 : d.length ≤ idx + 4
      · rw [if_pos h3] at h; cases h
      · rw [if_neg h3] at h
        have := (subCont_spec _ _ _ _ _ h).1
        omega

/-! ### Claims C1, C2, C3, C8, C10 -/

/-- C2 counterexample: removal is not idempotent on a container holding
two occurrences of the begin marker.  One removal truncates at the
trimmed boundary before the last marker, leaving the earlier marker in
the prefix, and a second removal truncates again. -/
theorem claim_C2_counterexample :
    removeSignature (removeSignature (marker ++ 88 :: marker)) ≠
      removeSignature (marker ++ 88 :: marker) := by decide

/-- C2 (amended): signature removal is idempotent for every container
with at most one occurrence of the begin marker.  A container in which
a second, earlier occurrence survives the truncation is trimmed further
by a second removal. -/
theorem claim_C2_remove_idempotent (C : List Nat)
    (huniq : ∀ i, i ≤ C.length → ∀ j, j ≤ C.length →
      marker <+: C.drop i → marker <+: C.drop j → i = j) :
    removeSignature (removeSignature C) = removeSignature C := by
  cases h : rfindSub C marker with
  | none =>
    have hC : removeSignature C = C := by
      unfold removeSignature
      rw [h]
    rw [hC, hC]
  | some i =>
    obtain ⟨hocc, hle, _⟩ := rfindFrom_eq_some C marker C.length i h
    have hC : removeSignature C = C.take (trimBoundary C i) := by
      unfold removeSignature
      rw [h]
    have hnone : rfindSub (C.take (trimBoundary C i)) marker = none := by
      apply (rfindFrom_eq_none _ _ _).mpr
      intro k _ hp
      have hk29 : k + 29 ≤ (C.take (trimBoundary C i)).length := by
        have := length_le_of_prefix_drop marker _ k (by rw [marker_length]; omega) hp
        rw [marker_length] at this
        omega
      have hkC : marker <+: C.drop k := by
        have heq : (C.take (trimBoundary C i)).drop k =
            (C.drop k).take (trimBoundary C i - k) := by
          rw [List.drop_take]
        rw [heq] at hp
        exact hp.trans (take_pre _ _)
      have hlt : (C.take (trimBoundary C i)).length ≤ trimBoundary C i := by
        rw [List.length_take]
        omega
      have htble : trimBoundary C i ≤ i := trimBoundary_le C i
      have hkClen : k ≤ C.length := by
        have := length_le_of_prefix_drop marker C k (by rw [marker_length]; omega) hkC
        omega
      have := huniq i hle k hkClen hocc hkC
      omega
    rw [hC]
    unfold removeSignature
    rw [hnone]

/-- C2 witness: a container with a single marker occurrence, on which
idempotence of removal holds. -/
theorem claim_C2_witness :
    removeSignature (removeSignature (65 :: 66 :: 10 :: marker)) =
      removeSignature (65 :: 66 :: 10 :: marker) :=
  claim_C2_remove_idempotent (65 :: 66 :: 10 :: marker) (by decide)

/-- C3: the trim boundary is at most the armor begin offset, the byte
immediately before it (if any) is not a separator byte, it is the
largest offset at most the begin offset with that property, and any
mixture of trailing separator whitespace inserted between the same
payload and the armor marker trims to the identical boundary, the
payload length. -/
theorem claim_C3_trim_boundary_canonical (l : List Nat) (i : Nat) (P w X : List Nat)
    (hw : ∀ b ∈ w, isWS b = true)
    (hP : isWS (byte P (P.length - 1)) = false) :
    trimBoundary l i ≤ i ∧
    (trimBoundary l i = 0 ∨ isWS (byte l (trimBoundary l i - 1)) = false) ∧
    (∀ o, o ≤ i → (o = 0 ∨ isWS (byte l (o - 1)) = false) → o ≤ trimBoundary l i) ∧
    trimBoundary (P ++ (w ++ X)) (P.length + w.length) = P.length := by
  refine ⟨trimBoundary_le l i, trimBoundary_stop l i,
    fun o ho hq => trimBoundary_max l i o ho hq, ?_⟩
  apply trimBoundary_eq_of
  · omega
  · intro k h1 h2
    have hk : k = P.length + (k - P.length) := by omega
    rw [hk, byte_append_right, byte_append_left _ _ _ (by omega)]
    exact hw _ (byte_mem w (k - P.length) (by omega))
  · cases P with
    | nil => exact Or.inl rfl
    | cons a Q =>
      right
      rw [byte_append_left _ _ _ (by simp)]
      exact hP

/-- C3 witness: payload byte 66 followed by the whitespace mixture
CR LF space tab before an armor byte trims to boundary 1. -/
theorem claim_C3_witness :
    trimBoundary ([66] ++ ([13, 10, 32, 9] ++ [45])) (1 + 4) = 1 :=
  (claim_C3_trim_boundary_canonical [65, 32, 32] 3 [66] [13, 10, 32, 9] [45]
    (by decide) (by decide)).2.2.2

/-- C1 counterexample: the embed and remove round trip loses the
trailing newline of a payload that ends in a separator byte.  Embedding
the armored signature into payload [65, 10] and removing it yields
[65], not [65, 10]. -/
theorem claim_C1_counterexample :
    removeSignature (embedClean [65, 10] sigEx) ≠ [65, 10] := by decide

/-- C1 (amended): the embed and remove round trip restores the payload
byte for byte for every payload that does not contain the begin marker
and does not end in a separator byte, and every signature text whose
normalization contains the begin marker preceded (at its last
occurrence) only by separator bytes, as any armored signature starting
with the marker does. -/
theorem claim_C1_round_trip (P S : List Nat) (j : Nat)
    (hPm : rfindSub P marker = none)
    (hPw : isWS (byte P (P.length - 1)) = false)
    (hS : rfindSub (normalize S) marker = some j)
    (hSw : ∀ b ∈ (normalize S).take j, isWS b = true) :
    removeSignature (embedClean P S) = P := by
  have hP : removeSignature P = P := by
    unfold removeSignature
    rw [hPm]
  have hL : embedClean P S = P ++ 10 :: normalize S := by
    unfold embedClean
    rw [hP]
  obtain ⟨hoccT, hjT, hmaxT⟩ := rfindFrom_eq_some _ marker _ j hS
  have hj29 : j + 29 ≤ (normalize S).length := by
    have := length_le_of_prefix_drop marker _ j (by rw [marker_length]; omega) hoccT
    rw [marker_length] at this
    omega
  have hnoP : ∀ k, k ≤ P.length → ¬ marker <+: P.drop k :=
    (rfindFrom_eq_none P marker P.length).mp hPm
  have hsplit : P ++ 10 :: normalize S = (P ++ [10]) ++ normalize S := by simp
  have hlen1 : (P ++ [10]).length = P.length + 1 := by simp
  have hfind : rfindSub (P ++ 10 :: normalize S) marker = some (P.length + 1 + j) := by
    apply rfindFrom_eq_some_of
    · simp
      omega
    · rw [hsplit]
      have : P.length + 1 + j = (P ++ [10]).length + j := by rw [hlen1]
      rw [this, drop_append_right]
      exact hoccT
    · intro k hk hkle hp
      rcases Nat.lt_or_ge k (P.length + 1) with hkp | hkp
      · rcases Nat.lt_or_ge (k + 29) (P.length + 1) with hfit | hfit
        · have hinP : marker <+: P.drop k := by
            have hd : (P ++ 10 :: normalize S).drop k = P.drop k ++ 10 :: normalize S :=
              drop_append_left _ _ _ (by omega)
            rw [hd] at hp
            apply prefix_of_prefix_append _ _ _ hp
            rw [marker_length, List.length_drop]
            omega
          exact hnoP k (by omega) hinP
        · have hmid : byte (P ++ 10 :: normalize S) (k + (P.length - k)) =
              byte marker (P.length - k) := by
            apply byte_of_prefix_drop _ _ _ _ hp
            rw [marker_length]
            omega
          have h10 : byte (P ++ 10 :: normalize S) P.length = 10 := by
            have h := byte_append_right P (10 :: normalize S) 0
            rw [Nat.add_zero] at h
            exact h
          rw [show k + (P.length - k) = P.length by omega] at hmid
          rw [h10] at hmid
          exact marker_no_newline (P.length - k) (by omega) hmid.symm
      · have ht : k = (P ++ [10]).length + (k - P.length - 1) := by
          rw [hlen1]; omega
        rw [hsplit, ht, drop_append_right] at hp
        have htlen := length_le_of_prefix_drop marker _ _
          (by rw [marker_length]; omega) hp
        rw [marker_length] at htlen
        exact hmaxT (k - P.length - 1) (by omega) (by omega) hp
  have htrim : trimBoundary (P ++ 10 :: normalize S) (P.length + 1 + j) = P.length := by
    apply trimBoundary_eq_of
    · omega
    · intro k h1 h2
      rcases Nat.lt_or_ge k (P.length + 1) with hk1 | hk1
      · have hkP : k = P.length := by omega
        subst hkP
        have h10 : byte (P ++ 10 :: normalize S) P.length = 10 := by
          have h := byte_append_right P (10 :: normalize S) 0
          rw [Nat.add_zero] at h
          exact h
        rw [h10]
        rfl
      · have ht : k = (P ++ [10]).length + (k - P.length - 1) := by
          rw [hlen1]; omega
        rw [hsplit, ht, byte_append_right]
        have hb : byte (normalize S) (k - P.length - 1) ∈ (normalize S).take j := by
          rw [← byte_take (normalize S) j _ (by omega)]
          apply byte_mem
          rw [List.length_take]
          omega
        exact hSw _ hb
    · rcases hcase : P with _ | ⟨a, Q⟩
      · exact Or.inl rfl
      · right
        rw [hcase] at hPw
        rw [byte_append_left _ _ _ (by simp)]
        exact hPw
  rw [hL]
  have hrm : removeSignature (P ++ 10 :: normalize S) =
      (P ++ 10 :: normalize S).take
        (trimBoundary (P ++ 10 :: normalize S) (P.length + 1 + j)) := by
    unfold removeSignature
    rw [hfind]
  rw [hrm, htrim, take_append_self]

/-- C1 witness: a payload not ending in whitespace round trips through
embed and remove with the concrete armored signature. -/
theorem claim_C1_witness : removeSignature (embedClean [65] sigEx) = [65] :=
  claim_C1_round_trip [65] sigEx 0 (by decide) (by decide) (by decide) (by decide)

/-- C8 counterexample: when the embed write raises on a container that
already carried an embedded signature, sign_appimage rewrites the
trimmed payload rather than the exact pre embed bytes, and still
returns success. -/
theorem claim_C8_counterexample :
    (signEmbedFile (65 :: 10 :: marker) [66] false).2 = true ∧
    (signEmbedFile (65 :: 10 :: marker) [66] false).1 ≠ 65 :: 10 :: marker := by
  decide

/-- C8 (amended): if the embed write raises, sign_appimage rewrites the
container with the trimmed clean payload and still reports success; the
rewritten bytes equal the pre embed bytes only when the container held
no begin marker.  In embed_signature.py, when the re locate check on
the rewritten file fails the file keeps the newly appended bytes and is
not restored. -/
theorem claim_C8_embed_failure_behavior (file sig : List Nat) :
    signEmbedFile file sig false = (removeSignature file, true) ∧
    (rfindSub file marker = none → (signEmbedFile file sig false).1 = file) ∧
    ((embedSigFile file sig).2 = false →
      (embedSigFile file sig).1 = removeSignature file ++ 10 :: sig) := by
  refine ⟨rfl, ?_, fun _ => rfl⟩
  intro h
  show removeSignature file = file
  unfold removeSignature
  rw [h]

/-- C8 witness: on a marker free container the restore after a failed
embed write is byte exact. -/
theorem claim_C8_witness : (signEmbedFile [65] [66] false).1 = [65] :=
  (claim_C8_embed_failure_behavior [65] [66]).2.1 (by decide)

/-- C10 counterexample: a container ending in separator whitespace but
carrying no embedded signature is written back unchanged by the
detached only signing path; its trailing whitespace is not stripped. -/
theorem claim_C10_counterexample :
    signDetachedFile [65, 10] = [65, 10] ∧ isWS 10 = true ∧
    signDetachedFile [65, 10] ≠ [65] := by decide

/-- C10 (amended): a successful detached only sign_appimage call
rewrites the container with the trimmed clean payload, which is
strictly shorter exactly when the container carried an embedded
signature marker; a container without the marker is written back byte
identical even if it ends in separator whitespace. -/
theorem claim_C10_detached_sign_rewrites (file : List Nat) :
    (rfindSub file marker ≠ none → (signDetachedFile file).length < file.length) ∧
    (rfindSub file marker = none → signDetachedFile file = file) := by
  constructor
  · intro hne
    cases h : rfindSub file marker with
    | none => exact absurd h hne
    | some i =>
      obtain ⟨hocc, hle, _⟩ := rfindFrom_eq_some file marker file.length i h
      have h29 : i + 29 ≤ file.length := by
        have := length_le_of_prefix_drop marker file i (by rw [marker_length]; omega) hocc
        rw [marker_length] at this
        omega
      have htb := trimBoundary_le file i
      show (removeSignature file).length < file.length
      unfold removeSignature
      rw [h, List.length_take]
      omega
  · intro h
    show removeSignature file = file
    unfold removeSignature
    rw [h]

/-- C10 witness: a container with an embedded signature is strictly
shortened by the detached only signing path. -/
theorem claim_C10_witness :
    (signDetachedFile (65 :: 10 :: marker)).length < (65 :: 10 :: marker).length :=
  (claim_C10_detached_sign_rewrites (65 :: 10 :: marker)).1 (by decide)

/-! ### Parser lemmas -/

theorem subLoop_stop (d : List Nat) (subEnd idx : Nat) (m : Meta)
    (h : ¬ (idx < subEnd ∧ idx < d.length)) : subLoop d subEnd idx m = m := by
  unfold subLoop
  rw [dif_neg h]

theorem subLoop_none (d : List Nat) (subEnd idx : Nat) (m : Meta)
    (hc : idx < subEnd ∧ idx < d.length) (hs : subStep d idx m = none) :
    subLoop d subEnd idx m = m := by
  unfold subLoop
  rw [dif_pos hc, dif_neg (by simp [hs])]

theorem subLoop_next (d : List Nat) (subEnd idx : Nat) (m : Meta) (p : Nat × Meta)
    (hc : idx < subEnd ∧ idx < d.length) (hs : subStep d idx m = some p) :
    subLoop d subEnd idx m = subLoop d subEnd p.1 p.2 := by
  conv_lhs => rw [subLoop]
  rw [dif_pos hc]
  have hsome : (subStep d idx m).isSome = true := by simp [hs]
  rw [dif_pos hsome]
  have hget : (subStep d idx m).get hsome = p :=
    Option.some_inj.mp ((Option.some_get hsome).trans hs)
  rw [hget]

theorem interpretSub_fields (d : List Nat) (t L i2 : Nat) (m : Meta) :
    (interpretSub d t L i2 m).parse_error = m.parse_error ∧
    (interpretSub d t L i2 m).raw_available = m.raw_available ∧
    (interpretSub d t L i2 m).version = m.version := by
  unfold interpretSub
  by_cases h1 : t = 2 ∧ L = 4
  · rw [if_pos h1]
    by_cases h2 : i2 + 4 ≤ d.length
    · rw [if_pos h2]; exact ⟨rfl, rfl, rfl⟩
    · rw [if_neg h2]; exact ⟨rfl, rfl, rfl⟩
  · rw [if_neg h1]
    by_cases h2 : t = 16 ∧ L = 8
    · rw [if_pos h2]
      by_cases h3 : i2 + 8 ≤ d.length
      · rw [if_pos h3]; exact ⟨rfl, rfl, rfl⟩
      · rw [if_neg h3]; exact ⟨rfl, rfl, rfl⟩
    · rw [if_neg h2]; exact ⟨rfl, rfl, rfl⟩

theorem subStep_fields (d : List Nat) (idx : Nat) (m : Meta) (p : Nat × Meta)
    (h : subStep d idx m = some p) :
    p.2.parse_error = m.parse_error ∧ p.2.raw_available = m.raw_available ∧
    p.2.version = m.version := by
  unfold subStep at h
  by_cases h1 : byte d idx < 192
  · rw [if_pos h1] at h
    rw [(subCont_spec _ _ _ _ _ h).2.1]
    exact interpretSub_fields _ _ _ _ _
  · rw [if_neg h1] at h
    by_cases h2 : byte d idx < 255
    · rw [if_pos h2] at h
      by_cases h3 : d.length ≤ idx + 1
      · rw [if_pos h3] at h; cases h
      · rw [if_neg h3] at h
        rw [(subCont_spec _ _ _ _ _ h).2.1]
        exact interpretSub_fields _ _ _ _ _
    · rw [if_neg h2] at h
      by_cases h3 : d.length ≤ idx + 4
      · rw [if_pos h3] at h; cases h
      · rw [if_neg h3] at h
        rw [(subCont_spec _ _ _ _ _ h).2.1]
        exact interpretSub_fields _ _ _ _ _

theorem subLoopFuel_fields (n : Nat) :
    ∀ (d : List Nat) (subEnd idx : Nat) (m : Meta), subEnd - idx ≤ n →
    (subLoop d subEnd idx m).parse_error = m.parse_error ∧
    (subLoop d subEnd idx m).raw_available = m.raw_available ∧
    (subLoop d subEnd idx m).version = m.version := by
  induction n with
  | zero =>
    intro d subEnd idx m hn
    rw [subLoop_stop d subEnd idx m (by omega)]
    exact ⟨rfl, rfl, rfl⟩
  | succ n ih =>
    intro d subEnd idx m hn
    by_cases hc : idx < subEnd ∧ idx < d.length
    · cases hs : subStep d idx m with
      | none =>
        rw [subLoop_none d subEnd idx m hc hs]
        exact ⟨rfl, rfl, rfl⟩
      | some p =>
        rw [subLoop_next d subEnd idx m p hc hs]
        have hlt := subStep_lt d idx m p hs
        obtain ⟨e1, e2, e3⟩ := ih d subEnd p.1 p.2 (by omega)
        obtain ⟨f1, f2, f3⟩ := subStep_fields d idx m p hs
        exact ⟨e1.trans f1, e2.trans f2, e3.trans f3⟩
    · rw [subLoop_stop d subEnd idx m hc]
      exact ⟨rfl, rfl, rfl⟩

theorem subLoop_fields (d : List Nat) (subEnd idx : Nat) (m : Meta) :
    (subLoop d subEnd idx m).parse_error = m.parse_error ∧
    (subLoop d subEnd idx m).raw_available = m.raw_available ∧
    (subLoop d subEnd idx m).version = m.version :=
  subLoopFuel_fields (subEnd - idx) d subEnd idx m (Nat.le_refl _)

theorem v3Time_fields (d : List Nat) (p : Meta × Nat) :
    (v3Time d p).1.parse_error = p.1.parse_error ∧
    (v3Time d p).1.raw_available = p.1.raw_available := by
  unfold v3Time
  split
  · exact ⟨rfl, rfl⟩
  · exact ⟨rfl, rfl⟩

theorem v3KeyId_fields (d : List Nat) (p : Meta × Nat) :
    (v3KeyId d p).1.parse_error = p.1.parse_error ∧
    (v3KeyId d p).1.raw_available = p.1.raw_available := by
  unfold v3KeyId
  split
  · exact ⟨rfl, rfl⟩
  · exact ⟨rfl, rfl⟩

theorem v3Algo_fields (d : List Nat) (p : Meta × Nat) :
    (v3Algo d p).1.parse_error = p.1.parse_error ∧
    (v3Algo d p).1.raw_available = p.1.raw_available := by
  unfold v3Algo
  split
  · exact ⟨rfl, rfl⟩
  · exact ⟨rfl, rfl⟩

theorem v3Hash_fields (d : List Nat) (p : Meta × Nat) :
    (v3Hash d p).parse_error = p.1.parse_error ∧
    (v3Hash d p).raw_available = p.1.raw_available := by
  unfold v3Hash
  split
  · exact ⟨rfl, rfl⟩
  · exact ⟨rfl, rfl⟩

theorem v3Chain_fields (d : List Nat) (p : Meta × Nat) :
    (v3Hash d (v3Algo d (v3KeyId d (v3Time d p)))).parse_error = p.1.parse_error ∧
    (v3Hash d (v3Algo d (v3KeyId d (v3Time d p)))).raw_available = p.1.raw_available :=
  ⟨((v3Hash_fields d _).1.trans ((v3Algo_fields d _).1.trans
      ((v3KeyId_fields d _).1.trans (v3Time_fields d p).1))),
   ((v3Hash_fields d _).2.trans ((v3Algo_fields d _).2.trans
      ((v3KeyId_fields d _).2.trans (v3Time_fields d p).2)))⟩

theorem parseSigBody_fields (d : List Nat) (idx0 : Nat) (m0 : Meta) :
    (parseSigBody d idx0 m0).parse_error = m0.parse_error ∧
    (parseSigBody d idx0 m0).raw_available = m0.raw_available := by
  simp only [parseSigBody]
  split_ifs <;>
    first
      | exact ⟨rfl, rfl⟩
      | exact ⟨(subLoop_fields d _ _ _).1, (subLoop_fields d _ _ _).2.1⟩
      | exact ⟨(v3Chain_fields d _).1, (v3Chain_fields d _).2⟩

theorem parse_error_cases (s : List Nat) :
    (parse_signature_metadata s).parse_error = none ∨
    (parse_signature_metadata s).parse_error = some ("Base64 decode error") ∨
    (parse_signature_metadata s).parse_error = some ("Signature data too short") := by
  simp only [parse_signature_metadata]
  split
  · exact Or.inl rfl
  · split
    · exact Or.inr (Or.inl rfl)
    · split
      · exact Or.inr (Or.inr rfl)
      · split
        · exact Or.inl (parseSigBody_fields _ _ _).1
        · exact Or.inl rfl

theorem hexDigit_upper : ∀ n, n < 16 → isUpperHexChar (hexDigit n) = true := by decide

theorem byteHex_upper (b : Nat) : ∀ c ∈ byteHex b, isUpperHexChar c = true := by
  intro c hc
  simp only [byteHex, List.mem_cons, List.not_mem_nil, or_false] at hc
  rcases hc with h | h
  · subst h
    exact hexDigit_upper _ (Nat.mod_lt _ (by omega))
  · subst h
    exact hexDigit_upper _ (Nat.mod_lt _ (by omega))

theorem hex16Chars_length (d : List Nat) (i : Nat) : (hex16Chars d i).length = 16 := by
  simp [hex16Chars, byteHex]

theorem hex16Chars_upper (d : List Nat) (i : Nat) :
    ∀ c ∈ hex16Chars d i, isUpperHexChar c = true := by
  intro c hc
  simp only [hex16Chars, List.mem_append] at hc
  rcases hc with ((((((h | h) | h) | h) | h) | h) | h) | h <;>
    exact byteHex_upper _ _ h

/-! ### Claims C4, C5, C6, C7, C9 -/

/-- C7: in the hashed sub packet walk, one iteration under each of the
three declared length encodings (one byte below 192, two bytes for
192 to 254, five bytes for marker 255) consumes the declared length
and continues, and the interpretation of any sub packet changes the
metadata only as follows: a type 2 sub packet with exactly four value
bytes sets the big endian timestamp, a type 16 sub packet with exactly
eight value bytes sets the key ID as 16 uppercase hexadecimal
characters, every other type (and a mismatching value size) leaves the
metadata unchanged, and no error is produced. -/
theorem claim_C7_subpacket_walk (d : List Nat) (subEnd idx : Nat) (m : Meta)
    (hc : idx < subEnd) (hc2 : idx < d.length) :
    (byte d idx < 192 → 1 ≤ byte d idx → idx + 1 < d.length →
      subLoop d subEnd idx m =
        subLoop d subEnd (idx + 1 + byte d idx)
          (interpretSub d (byte d (idx + 1)) (byte d idx - 1) (idx + 2) m)) ∧
    (192 ≤ byte d idx → byte d idx < 255 → idx + 2 < d.length →
      subLoop d subEnd idx m =
        subLoop d subEnd (idx + 2 + ((byte d idx - 192) * 256 + byte d (idx + 1) + 192))
          (interpretSub d (byte d (idx + 2))
            ((byte d idx - 192) * 256 + byte d (idx + 1) + 192 - 1) (idx + 3) m)) ∧
    (byte d idx = 255 → idx + 5 < d.length → 1 ≤ be4 d (idx + 1) →
      subLoop d subEnd idx m =
        subLoop d subEnd (idx + 5 + be4 d (idx + 1))
          (interpretSub d (byte d (idx + 5)) (be4 d (idx + 1) - 1) (idx + 6) m)) ∧
    (∀ t L i2,
      (t = 2 → L = 4 → i2 + 4 ≤ d.length →
        interpretSub d t L i2 m = {m with timestamp := some (be4 d i2)}) ∧
      (t = 2 → L ≠ 4 → interpretSub d t L i2 m = m) ∧
      (t = 16 → L = 8 → i2 + 8 ≤ d.length →
        interpretSub d t L i2 m = {m with key_id := some (hex16 d i2)}) ∧
      (t = 16 → L ≠ 8 → interpretSub d t L i2 m = m) ∧
      (t ≠ 2 → t ≠ 16 → interpretSub d t L i2 m = m) ∧
      (interpretSub d t L i2 m).parse_error = m.parse_error ∧
      (hex16Chars d i2).length = 16 ∧
      (∀ c ∈ hex16Chars d i2, isUpperHexChar c = true)) := by
  refine ⟨?_, ?_, ?_, ?_⟩
  · intro hb hb1 hi
    have hstep : subStep d idx m =
        some (idx + 1 + byte d idx,
          interpretSub d (byte d (idx + 1)) (byte d idx - 1) (idx + 2) m) := by
      unfold subStep subCont
      rw [if_pos hb, if_neg (show ¬ (d.length ≤ idx + 1 ∨ byte d idx < 1) by omega)]
      have harith : idx + 1 + 1 + (byte d idx - 1) = idx + 1 + byte d idx := by omega
      rw [harith]
    exact subLoop_next d subEnd idx m _ ⟨hc, hc2⟩ hstep
  · intro h192 h255 hi
    have hstep : subStep d idx m =
        some (idx + 2 + ((byte d idx - 192) * 256 + byte d (idx + 1) + 192),
          interpretSub d (byte d (idx + 2))
            ((byte d idx - 192) * 256 + byte d (idx + 1) + 192 - 1) (idx + 3) m) := by
      unfold subStep subCont
      rw [if_neg (show ¬ byte d idx < 192 by omega), if_pos h255,
        if_neg (show ¬ d.length ≤ idx + 1 by omega),
        if_neg (show ¬ (d.length ≤ idx + 2 ∨
          (byte d idx - 192) * 256 + byte d (idx + 1) + 192 < 1) by omega)]
      have harith : idx + 2 + 1 + ((byte d idx - 192) * 256 + byte d (idx + 1) + 192 - 1) =
          idx + 2 + ((byte d idx - 192) * 256 + byte d (idx + 1) + 192) := by omega
      rw [harith]
    exact subLoop_next d subEnd idx m _ ⟨hc, hc2⟩ hstep
  · intro h255 hi hL
    have hstep : subStep d idx m =
        some (idx + 5 + be4 d (idx + 1),
          interpretSub d (byte d (idx + 5)) (be4 d (idx + 1) - 1) (idx + 6) m) := by
      unfold subStep subCont
      rw [if_neg (show ¬ byte d idx < 192 by omega),
        if_neg (show ¬ byte d idx < 255 by omega),
        if_neg (show ¬ d.length ≤ idx + 4 by omega),
        if_neg (show ¬ (d.length ≤ idx + 5 ∨ be4 d (idx + 1) < 1) by omega)]
      have harith : idx + 5 + 1 + (be4 d (idx + 1) - 1) = idx + 5 + be4 d (idx + 1) := by
        omega
      rw [harith]
    exact subLoop_next d subEnd idx m _ ⟨hc, hc2⟩ hstep
  · intro t L i2
    refine ⟨?_, ?_, ?_, ?_, ?_, (interpretSub_fields _ _ _ _ _).1,
      hex16Chars_length d i2, hex16Chars_upper d i2⟩
    · intro ht hl hle
      unfold interpretSub
      rw [if_pos ⟨ht, hl⟩, if_pos hle]
    · intro ht hl
      unfold interpretSub
      rw [if_neg (fun hconj => hl hconj.2), if_neg (by simp [ht])]
    · intro ht hl hle
      unfold interpretSub
      rw [if_neg (by simp [ht]), if_pos ⟨ht, hl⟩, if_pos hle]
    · intro ht hl
      unfold interpretSub
      rw [if_neg (by simp [ht]), if_neg (fun hconj => hl hconj.2)]
    · intro ht2 ht16
      unfold interpretSub
      rw [if_neg (fun hconj => ht2 hconj.1), if_neg (fun hconj => ht16 hconj.1)]

/-- C7 witness: the creation time sub packet of the decoded concrete
v4 packet (one byte length 5 at offset 8, type 2, four value bytes)
steps the walk to offset 14 and sets timestamp 1700000000; a two byte
encoded length (bytes 192 and 0, declared length 192) and a five byte
encoded length (marker 255, big endian length 2) also step their walks
by their declared lengths. -/
theorem claim_C7_witness :
    subLoop decodedEx 24 8 {} =
      subLoop decodedEx 24 (8 + 1 + byte decodedEx 8)
        (interpretSub decodedEx (byte decodedEx 9) (byte decodedEx 8 - 1) 10 {}) ∧
    interpretSub decodedEx 2 4 10 {} = { timestamp := some 1700000000 } ∧
    subLoop decodedEx2 1 0 {} =
      subLoop decodedEx2 1 (0 + 2 + ((byte decodedEx2 0 - 192) * 256 + byte decodedEx2 1 + 192))
        (interpretSub decodedEx2 (byte decodedEx2 2)
          ((byte decodedEx2 0 - 192) * 256 + byte decodedEx2 1 + 192 - 1) 3 {}) ∧
    subLoop decodedEx3 1 0 {} =
      subLoop decodedEx3 1 (0 + 5 + be4 decodedEx3 1)
        (interpretSub decodedEx3 (byte decodedEx3 5) (be4 decodedEx3 1 - 1) 6 {}) :=
  ⟨(claim_C7_subpacket_walk decodedEx 24 8 {} (by decide) (by decide)).1
      (by decide) (by decide) (by decide),
   ((claim_C7_subpacket_walk decodedEx 24 8 {} (by decide) (by decide)).2.2.2 2 4 10).1
      rfl rfl (by decide),
   (claim_C7_subpacket_walk decodedEx2 1 0 {} (by decide) (by decide)).2.1
      (by decide) (by decide) (by decide),
   (claim_C7_subpacket_walk decodedEx3 1 0 {} (by decide) (by decide)).2.2.1
      (by decide) (by decide) (by decide)⟩

/-- C5 counterexample: an armor input whose decoded first packet has
tag 1, on which the parser returns the bare metadata with
raw_available true and no error indication of any kind, rather than a
NotASignature error. -/
theorem claim_C5_counterexample :
    b64decode (collectB64 (splitLines ex5) false).flatten =
      some [193, 8, 1, 2, 3, 4, 5, 6, 7, 8] ∧
    (parseHeader [193, 8, 1, 2, 3, 4, 5, 6, 7, 8]).1 = 1 ∧
    parse_signature_metadata ex5 = { raw_available := true } := by decide

/-- C5 (amended): for every armor input whose decoded buffer has at
least ten bytes and whose first packet tag differs from 2, the parser
returns the metadata with raw_available true and every other field
absent, with no error value: the tag mismatch is silently ignored
rather than reported as NotASignature. -/
theorem claim_C5_not_a_signature (s decoded : List Nat)
    (hb : collectB64 (splitLines s) false ≠ [])
    (hd : b64decode (collectB64 (splitLines s) false).flatten = some decoded)
    (hlen : 10 ≤ decoded.length)
    (hpt : (parseHeader decoded).1 ≠ 2) :
    parse_signature_metadata s = { raw_available := true } := by
  simp only [parse_signature_metadata]
  rw [if_neg hb]
  simp only [hd]
  rw [if_neg (show ¬ decoded.length < 10 by omega), if_neg hpt]

/-- C5 witness: the concrete tag 1 armor satisfies the pipeline
hypotheses and yields the bare raw_available metadata. -/
theorem claim_C5_witness : parse_signature_metadata ex5 = { raw_available := true } :=
  claim_C5_not_a_signature ex5 [193, 8, 1, 2, 3, 4, 5, 6, 7, 8]
    (by decide) (by decide) (by decide) (by decide)

/-- C6 counterexample: an armor input whose signature packet has
version byte 6 is parsed to metadata recording version 6 with no
error value, rather than an UnsupportedVersion error. -/
theorem claim_C6_counterexample :
    parse_signature_metadata ex6 = { raw_available := true, version := some 6 } ∧
    (parse_signature_metadata ex6).parse_error = none := by decide

/-- C6 (amended): for every armor input whose signature packet version
byte lies outside the set of 3, 4 and 5, the parser records that
version value in the version field and returns with every other
signature field absent and no error value: the unsupported version is
not reported as an error, though no layout is guessed. -/
theorem claim_C6_unsupported_version (s decoded : List Nat)
    (hb : collectB64 (splitLines s) false ≠ [])
    (hd : b64decode (collectB64 (splitLines s) false).flatten = some decoded)
    (hlen : 10 ≤ decoded.length)
    (hpt : (parseHeader decoded).1 = 2)
    (hidx : (parseHeader decoded).2 < decoded.length)
    (hv3 : byte decoded (parseHeader decoded).2 ≠ 3)
    (hv4 : byte decoded (parseHeader decoded).2 ≠ 4)
    (hv5 : byte decoded (parseHeader decoded).2 ≠ 5) :
    parse_signature_metadata s =
      { raw_available := true, version := some (byte decoded (parseHeader decoded).2) } := by
  simp only [parse_signature_metadata]
  rw [if_neg hb]
  simp only [hd]
  rw [if_neg (show ¬ decoded.length < 10 by omega), if_pos hpt]
  simp only [parseSigBody]
  rw [if_neg (show ¬ decoded.length ≤ (parseHeader decoded).2 by omega),
    if_neg (show ¬ (byte decoded (parseHeader decoded).2 = 4 ∨
      byte decoded (parseHeader decoded).2 = 5) from fun hor => hor.elim hv4 hv5),
    if_neg hv3]

/-- C6 witness: the concrete version 6 armor satisfies the pipeline
hypotheses and yields the version recording metadata. -/
theorem claim_C6_witness :
    parse_signature_metadata ex6 = { raw_available := true, version := some 6 } :=
  claim_C6_unsupported_version ex6 [136, 7, 6, 0, 0, 0, 0, 0, 0, 0]
    (by decide) (by decide) (by decide) (by decide) (by decide)
    (by decide) (by decide) (by decide)

/-- C4 counterexample: the 29 byte prefix of the valid armor text
(truncated right after the begin marker line) parses to the initial
metadata with no error value at all, not a Truncated or MalformedArmor
error. -/
theorem claim_C4_counterexample :
    parse_signature_metadata (sigEx.take 29) = {} ∧
    (parse_signature_metadata (sigEx.take 29)).parse_error = none := by decide

/-- C4 (amended): the parser is a total function, so feeding any
prefix of any input never crashes, and every index into the decoded
buffer is read through a bounds guard mirrored from the source; the
failure values it can report are only the base64 decode error and the
too short error, and a truncation may also yield partial or empty
metadata with no error value instead of a Truncated or MalformedArmor
error. -/
theorem claim_C4_truncation_total (s : List Nat) (k : Nat) :
    (parse_signature_metadata (s.take k)).parse_error = none ∨
    (parse_signature_metadata (s.take k)).parse_error = some ("Base64 decode error") ∨
    (parse_signature_metadata (s.take k)).parse_error = some ("Signature data too short") :=
  parse_error_cases (s.take k)

/-- C9: the parser is total on arbitrary input and failures stay inside
the result: whenever decoding did not reach a plausible packet
(raw_available is false), every signature field of the returned
metadata is absent; no exception escapes, as the model returns a
metadata value on every input. -/
theorem claim_C9_parser_total (s : List Nat) :
    (parse_signature_metadata s).raw_available = true ∨
    ((parse_signature_metadata s).version = none ∧
     (parse_signature_metadata s).signature_type = none ∧
     (parse_signature_metadata s).timestamp = none ∧
     (parse_signature_metadata s).key_id = none ∧
     (parse_signature_metadata s).algorithm = none ∧
     (parse_signature_metadata s).hash_algorithm = none) := by
  simp only [parse_signature_metadata]
  split
  · exact Or.inr ⟨rfl, rfl, rfl, rfl, rfl, rfl⟩
  · split
    · exact Or.inr ⟨rfl, rfl, rfl, rfl, rfl, rfl⟩
    · split
      · exact Or.inr ⟨rfl, rfl, rfl, rfl, rfl, rfl⟩
      · split
        · exact Or.inl (parseSigBody_fields _ _ _).2
        · exact Or.inl rfl

end AppImageResigner
